import Mathlib

/-!
Verification of the scheduling stage of the CINN operator-fusion backend
(`cinn/hlir/framework/op_lowering_util.cc`) against its natural-language
specification.  Operator nodes are modelled by natural-number identifiers
(`Node::id()`), graphs by consumer/producer adjacency functions, shapes by
lists of naturals keyed by data-node identifiers, and the loop nest of a
single schedule block by its list of loop extents.  Breadth-first searches
that the C++ runs on a DAG without an explicit bound are given an explicit
fuel argument; every theorem below holds for every fuel value.
-/

namespace CinnSched

/-- Index of the first occurrence of `a` in a list (list length if absent),
mirroring how a position in `nodes_in_order` is found by linear scan. -/
def idxOf (a : Nat) : List Nat → Nat
  | [] => 0
  | b :: l => if b = a then 0 else idxOf a l + 1

theorem idxOf_lt_length {a : Nat} {l : List Nat} (h : a ∈ l) : idxOf a l < l.length := by
  induction l with
  | nil => cases h
  | cons b t ih =>
    by_cases hb : b = a
    · simp [idxOf, hb]
    · rcases List.mem_cons.mp h with h1 | h2
      · exact absurd h1.symm hb
      · simpa [idxOf, hb] using ih h2

theorem idxOf_append_left {a : Nat} {l l' : List Nat} (h : a ∈ l) :
    idxOf a (l ++ l') = idxOf a l := by
  induction l with
  | nil => cases h
  | cons b t ih =>
    by_cases hb : b = a
    · simp [idxOf, hb]
    · rcases List.mem_cons.mp h with h1 | h2
      · exact absurd h1.symm hb
      · simp [idxOf, hb, ih h2]

theorem idxOf_append_self {a : Nat} {l : List Nat} (h : a ∉ l) :
    idxOf a (l ++ [a]) = l.length := by
  induction l with
  | nil => simp [idxOf]
  | cons b t ih =>
    have hb : b ≠ a := fun he => h (he ▸ List.mem_cons_self b t)
    have ht : a ∉ t := fun hm => h (List.mem_cons_of_mem b hm)
    simp [idxOf, hb, ih ht]

/-- Insert a node id into an ascending list, keeping it sorted; used to model
iteration over `std::set<Node*, NodeCompare>` (nodes visited in increasing id). -/
def insertSorted (n : Nat) : List Nat → List Nat
  | [] => [n]
  | m :: ms => if n ≤ m then n :: m :: ms else m :: insertSorted n ms

/-- Ascending sort of the not-yet-ordered node set, as `TopologicalOrder`
builds `tmp_node_set` each round. -/
def sortNodes (l : List Nat) : List Nat := l.foldr insertSorted []

theorem mem_insertSorted {x n : Nat} {l : List Nat} :
    x ∈ insertSorted n l ↔ x = n ∨ x ∈ l := by
  induction l with
  | nil => simp [insertSorted]
  | cons m ms ih =>
    by_cases h : n ≤ m
    · simp [insertSorted, h]
    · simp [insertSorted, h, ih]
      tauto

theorem mem_sortNodes {x : Nat} {l : List Nat} : x ∈ sortNodes l ↔ x ∈ l := by
  induction l with
  | nil => simp [sortNodes]
  | cons m ms ih =>
    simp only [sortNodes, List.foldr] at *
    rw [mem_insertSorted, ih]
    simp

theorem nodup_insertSorted {n : Nat} {l : List Nat} (hl : l.Nodup) (hn : n ∉ l) :
    (insertSorted n l).Nodup := by
  induction l with
  | nil => simp [insertSorted]
  | cons m ms ih =>
    rcases List.nodup_cons.mp hl with ⟨hm, hms⟩
    have hn' : n ∉ ms := fun h => hn (List.mem_cons_of_mem m h)
    have hnm : n ≠ m := fun h => hn (h ▸ List.mem_cons_self m ms)
    by_cases h : n ≤ m
    · rw [insertSorted, if_pos h]
      exact List.nodup_cons.mpr ⟨by simp [hnm, hn'], List.nodup_cons.mpr ⟨hm, hms⟩⟩
    · rw [insertSorted, if_neg h]
      refine List.nodup_cons.mpr ⟨?_, ih hms hn'⟩
      rw [mem_insertSorted]
      rintro (h1 | h2)
      · exact hnm.symm h1
      · exact hm h2

theorem nodup_sortNodes {l : List Nat} (hl : l.Nodup) : (sortNodes l).Nodup := by
  induction l with
  | nil => simp [sortNodes]
  | cons m ms ih =>
    rcases List.nodup_cons.mp hl with ⟨hm, hms⟩
    have : m ∉ sortNodes ms := fun h => hm (mem_sortNodes.mp h)
    exact nodup_insertSorted (ih hms) this

/-- Model of `FindConsumers`: in-set consumers of `node` (as `GetConsumersInSet`, the
graph consumers filtered to the remaining set), plus the virtual consumer
recorded for `node`, if any. -/
def findConsumersL (consumersOf : Nat → List Nat) (virt : Nat → Option Nat)
    (n : Nat) (live : List Nat) : List Nat :=
  (consumersOf n).filter (· ∈ live) ++ (match virt n with | some v => [v] | none => [])

/-- One pass of `TopologicalOrder`'s outer `while`: walk the sorted snapshot
`tmp` of the remaining set; a node none of whose found consumers is still in
the remaining set is appended to `nodes_in_order` and erased. -/
def topoPass (consumersOf : Nat → List Nat) (virt : Nat → Option Nat) :
    List Nat → List Nat → List Nat → List Nat × List Nat
  | order, live, [] => (order, live)
  | order, live, n :: tmp =>
    if (findConsumersL consumersOf virt n live).any (· ∈ live) then
      topoPass consumersOf virt order live tmp
    else
      topoPass consumersOf virt (order ++ [n]) (live.erase n) tmp

/-- The outer `while (!nodes_set.empty())` of `TopologicalOrder`.  The C++
loop has no bound and diverges if no node can ever be peeled off (a cyclic
group); the fuel argument caps the number of rounds, which is immaterial to
the ordering invariant proved below. -/
def topoLoop (consumersOf : Nat → List Nat) (virt : Nat → Option Nat) :
    Nat → List Nat → List Nat → List Nat
  | 0, order, _ => order
  | fuel + 1, order, live =>
    if live.isEmpty then order
    else
      let p := topoPass consumersOf virt order live (sortNodes live)
      topoLoop consumersOf virt fuel p.1 p.2

/-- Model of `TopologicalOrder(group, virtual_consumers)`: `group` is the group's node
set, `consumersOf` the graph consumer adjacency and `virt` the virtual
consumer map. -/
def topologicalOrder (consumersOf : Nat → List Nat) (virt : Nat → Option Nat)
    (group : List Nat) : List Nat :=
  topoLoop consumersOf virt group.length [] group

/-- A real or virtual producer-to-consumer edge of the graph. -/
def IsEdge (consumersOf : Nat → List Nat) (virt : Nat → Option Nat) (p c : Nat) : Prop :=
  c ∈ consumersOf p ∨ virt p = some c

/-- Invariant maintained by `TopologicalOrder` between the already-emitted
order and the remaining node set: they are disjoint, jointly cover the
group, are duplicate-free, and within the emitted order every in-group edge
target appears strictly earlier than its source. -/
def TopoInv (consumersOf : Nat → List Nat) (virt : Nat → Option Nat)
    (group order live : List Nat) : Prop :=
  (∀ x, x ∈ order → x ∉ live) ∧
  (∀ x, x ∈ group → x ∈ order ∨ x ∈ live) ∧
  (∀ x, x ∈ live → x ∈ group) ∧
  order.Nodup ∧ live.Nodup ∧
  (∀ p c, p ∈ order → IsEdge consumersOf virt p c → c ∈ group →
    c ∈ order ∧ idxOf c order < idxOf p order)

theorem topoInv_emit {consumersOf : Nat → List Nat} {virt : Nat → Option Nat}
    {group order live : List Nat} {n : Nat}
    (hI : TopoInv consumersOf virt group order live) (hn : n ∈ live)
    (hstay : ¬ (findConsumersL consumersOf virt n live).any (· ∈ live)) :
    TopoInv consumersOf virt group (order ++ [n]) (live.erase n) := by
  obtain ⟨hdisj, hcover, hsub, hndo, hndl, hord⟩ := hI
  have hnorder : n ∉ order := fun h => hdisj n h hn
  -- no in-set consumer of n, real or virtual, remains in the live set
  have hnocons : ∀ c, c ∈ consumersOf n → c ∉ live := by
    intro c hc hcl
    apply hstay
    simp only [List.any_eq_true, decide_eq_true_eq]
    exact ⟨c, by simp [findConsumersL, List.mem_filter, hc, hcl], hcl⟩
  have hnovirt : ∀ c, virt n = some c → c ∉ live := by
    intro c hc hcl
    apply hstay
    simp only [List.any_eq_true, decide_eq_true_eq]
    refine ⟨c, ?_, hcl⟩
    simp [findConsumersL, hc]
  refine ⟨?_, ?_, ?_, ?_, hndl.erase n, ?_⟩
  · intro x hx hxe
    rcases List.mem_append.mp hx with h1 | h2
    · exact hdisj x h1 (List.mem_of_mem_erase hxe)
    · have : x = n := by simpa using h2
      subst this
      exact (List.Nodup.mem_erase_iff hndl).mp hxe |>.1 rfl
  · intro x hx
    rcases hcover x hx with h1 | h2
    · exact Or.inl (List.mem_append.mpr (Or.inl h1))
    · by_cases hxn : x = n
      · exact Or.inl (List.mem_append.mpr (Or.inr (by simp [hxn])))
      · exact Or.inr ((List.Nodup.mem_erase_iff hndl).mpr ⟨hxn, h2⟩)
  · intro x hx
    exact hsub x (List.mem_of_mem_erase hx)
  · exact List.Nodup.append hndo (by simp) (by
      intro a ha hb
      have : a = n := by simpa using hb
      exact hnorder (this ▸ ha))
  · intro p c hp hedge hcg
    rcases List.mem_append.mp hp with hpo | hpn
    · have := hord p c hpo hedge hcg
      refine ⟨List.mem_append.mpr (Or.inl this.1), ?_⟩
      rw [idxOf_append_left this.1, idxOf_append_left hpo]
      exact this.2
    · have hpn' : p = n := by simpa using hpn
      subst hpn'
      have hcl : c ∉ live := by
        rcases hedge with h | h
        · exact hnocons c h
        · exact hnovirt c h
      have hco : c ∈ order := (hcover c hcg).resolve_right hcl
      refine ⟨List.mem_append.mpr (Or.inl hco), ?_⟩
      rw [idxOf_append_left hco, idxOf_append_self hnorder]
      exact idxOf_lt_length hco

theorem topoPass_inv (consumersOf : Nat → List Nat) (virt : Nat → Option Nat)
    (group : List Nat) :
    ∀ tmp order live, TopoInv consumersOf virt group order live →
      (∀ x, x ∈ tmp → x ∈ live) → tmp.Nodup →
      TopoInv consumersOf virt group
        (topoPass consumersOf virt order live tmp).1
        (topoPass consumersOf virt order live tmp).2 := by
  intro tmp
  induction tmp with
  | nil => intro order live hI _ _; simpa [topoPass] using hI
  | cons n tmp ih =>
    intro order live hI htmp hnd
    rcases List.nodup_cons.mp hnd with ⟨hn_tmp, hnd'⟩
    by_cases hc : (findConsumersL consumersOf virt n live).any (· ∈ live)
    · rw [topoPass, if_pos hc]
      exact ih order live hI (fun x hx => htmp x (List.mem_cons_of_mem n hx)) hnd'
    · rw [topoPass, if_neg hc]
      have hn_live : n ∈ live := htmp n (List.mem_cons_self n tmp)
      refine ih (order ++ [n]) (live.erase n) (topoInv_emit hI hn_live hc) ?_ hnd'
      intro x hx
      have hxl : x ∈ live := htmp x (List.mem_cons_of_mem n hx)
      have hxn : x ≠ n := fun he => hn_tmp (he ▸ hx)
      exact (List.Nodup.mem_erase_iff (hI.2.2.2.2.1)).mpr ⟨hxn, hxl⟩

theorem topoLoop_inv (consumersOf : Nat → List Nat) (virt : Nat → Option Nat)
    (group : List Nat) :
    ∀ fuel order live, TopoInv consumersOf virt group order live →
      ∃ live', TopoInv consumersOf virt group
        (topoLoop consumersOf virt fuel order live) live' := by
  intro fuel
  induction fuel with
  | zero => intro order live hI; exact ⟨live, hI⟩
  | succ fuel ih =>
    intro order live hI
    by_cases he : live.isEmpty
    · rw [topoLoop, if_pos he]; exact ⟨live, hI⟩
    · rw [topoLoop, if_neg he]
      have hinv := topoPass_inv consumersOf virt group (sortNodes live) order live hI
        (fun x hx => mem_sortNodes.mp hx) (nodup_sortNodes hI.2.2.2.2.1)
      exact ih _ _ hinv

/-- Claim C1 (amended): for every real or virtual producer→consumer edge whose
endpoints both belong to a duplicate-free group, whenever the producer appears
in the sequence returned by `TopologicalOrder`, the consumer appears there too
and at a strictly EARLIER position.  (`TopologicalOrder` peels off nodes that
have no remaining in-set consumer, so consumers are emitted first; the claim's
original direction — producer strictly before consumer — is the reverse of
what the code computes.) -/
theorem topologicalOrder_consumer_before_producer
    (consumersOf : Nat → List Nat) (virt : Nat → Option Nat) (group : List Nat)
    (hnd : group.Nodup) (p c : Nat)
    (hedge : IsEdge consumersOf virt p c) (hcg : c ∈ group)
    (hp : p ∈ topologicalOrder consumersOf virt group) :
    c ∈ topologicalOrder consumersOf virt group ∧
      idxOf c (topologicalOrder consumersOf virt group) <
        idxOf p (topologicalOrder consumersOf virt group) := by
  have hI0 : TopoInv consumersOf virt group [] group :=
    ⟨by simp, fun x hx => Or.inr hx, fun x hx => hx, List.nodup_nil, hnd, by simp⟩
  obtain ⟨live', hI⟩ := topoLoop_inv consumersOf virt group group.length [] group hI0
  exact hI.2.2.2.2.2 p c hp hedge hcg

/-- Claim C1 counterexample: in the two-node group `{0, 1}` where node 0
produces for node 1, `TopologicalOrder` returns `[1, 0]`, so the producer's
position (1) is NOT strictly before the consumer's (0), refuting the claim
as stated. -/
theorem topologicalOrder_producer_first_false :
    topologicalOrder (fun n => if n = 0 then [1] else []) (fun _ => none) [0, 1] = [1, 0] ∧
      ¬ idxOf 0 (topologicalOrder (fun n => if n = 0 then [1] else []) (fun _ => none) [0, 1]) <
        idxOf 1 (topologicalOrder (fun n => if n = 0 then [1] else []) (fun _ => none) [0, 1]) := by
  constructor
  · rfl
  · intro h
    simp only [show topologicalOrder (fun n => if n = 0 then [1] else [])
      (fun _ => none) [0, 1] = [1, 0] from rfl] at h
    simp [idxOf] at h

/-- Witness for the amended Claim C1 at the same concrete two-node group. -/
theorem topologicalOrder_consumer_before_producer_witness :
    1 ∈ topologicalOrder (fun n => if n = 0 then [1] else []) (fun _ => none) [0, 1] ∧
      idxOf 1 (topologicalOrder (fun n => if n = 0 then [1] else []) (fun _ => none) [0, 1]) <
        idxOf 0 (topologicalOrder (fun n => if n = 0 then [1] else []) (fun _ => none) [0, 1]) :=
  topologicalOrder_consumer_before_producer
    (fun n => if n = 0 then [1] else []) (fun _ => none) [0, 1]
    (by decide) 0 1 (Or.inl (by simp)) (by simp)
    (by rw [show topologicalOrder (fun n => if n = 0 then [1] else [])
      (fun _ => none) [0, 1] = [1, 0] from rfl]; simp)

/-- The trailing product computed by `WithoutLastDimInReduce`: the product of
the `shape` entries at indices `idx` with `start ≤ idx < shape.size()`
(`start` is `axes.back() + 1`, an `int` in the source, hence `Int` here).
When `start` is negative, the C++ condition `idx < shape.size()` compares the
`int` counter against a `size_t`, converting the negative value to a huge
unsigned one, so the loop runs zero iterations and the product stays 1. -/
def sumLastAxes (shape : List Int) (start : Int) : Int :=
  if start < 0 then 1
  else
    (List.range shape.length).foldl
      (fun acc (i : Nat) => if start ≤ (i : Int) then acc * shape.getD i 0 else acc) 1

/-- Model of `WithoutLastDimInReduce(shape, axes)`: selects the without-last reduction
strategy.  False on an empty axis list, false if the last dimension index or
`-1` occurs in `axes`, and otherwise true exactly when the product of the
dimensions strictly after `axes.back()` exceeds 1. -/
def withoutLastDimInReduce (shape axes : List Int) : Bool :=
  if axes.isEmpty then false
  else if ((shape.length : Int) - 1) ∈ axes ∨ (-1 : Int) ∈ axes then false
  else if sumLastAxes shape (axes.getLastD 0 + 1) > 1 then true
  else false

/-- The selection predicate exactly as Claim C5 words it: axes non-empty and
not containing the last dimension index. -/
def withoutLastDimInReduceClaim (shape axes : List Int) : Prop :=
  axes ≠ [] ∧ ((shape.length : Int) - 1) ∉ axes

/-- Claim C5 counterexample: for `shape = [4, 1]`, `axes = [0]` the axis list
is non-empty and does not contain the last dimension index 1, yet
`WithoutLastDimInReduce` returns false (the trailing product `shape[1] = 1`
does not exceed 1), refuting the claimed equivalence. -/
theorem withoutLastDimInReduce_claim_false :
    ¬ (withoutLastDimInReduce [4, 1] [0] = true ↔ withoutLastDimInReduceClaim [4, 1] [0]) := by
  intro h
  have h1 : withoutLastDimInReduce [4, 1] [0] = false := rfl
  have h2 : withoutLastDimInReduceClaim [4, 1] [0] := by
    constructor
    · simp
    · decide
  rw [h1] at h
  exact absurd (h.mpr h2) (by simp)

/-- Claim C5 (amended): for every non-empty shape, `WithoutLastDimInReduce`
returns true iff the axis list is non-empty, contains neither the last
dimension index nor `-1`, and the product of the shape dimensions strictly
after the last listed axis exceeds 1. -/
theorem withoutLastDimInReduce_iff (shape axes : List Int) (hs : shape ≠ []) :
    withoutLastDimInReduce shape axes = true ↔
      axes ≠ [] ∧ ((shape.length : Int) - 1) ∉ axes ∧ (-1 : Int) ∉ axes ∧
        1 < sumLastAxes shape (axes.getLastD 0 + 1) := by
  unfold withoutLastDimInReduce
  by_cases h0 : axes.isEmpty = true
  · have : axes = [] := List.isEmpty_iff.mp h0
    subst this
    simp
  · have hne : axes ≠ [] := fun h => h0 (by simp [h])
    rw [if_neg h0]
    by_cases h1 : ((shape.length : Int) - 1) ∈ axes ∨ (-1 : Int) ∈ axes
    · rw [if_pos h1]
      simp only [Bool.false_eq_true, false_iff]
      rintro ⟨_, hL, hm, _⟩
      rcases h1 with h | h
      · exact hL h
      · exact hm h
    · rw [if_neg h1]
      push_neg at h1
      by_cases h2 : sumLastAxes shape (axes.getLastD 0 + 1) > 1
      · rw [if_pos h2]
        simp only [true_iff]
        exact ⟨hne, h1.1, h1.2, h2⟩
      · rw [if_neg h2]
        simp only [Bool.false_eq_true, false_iff]
        rintro ⟨_, _, _, hlt⟩
        exact h2 hlt

/-- Witness for the amended Claim C5: shape `[16, 16, 16]`, axes `[0]` — the
trailing product is `256 > 1` and the function returns true. -/
theorem withoutLastDimInReduce_iff_witness :
    withoutLastDimInReduce [16, 16, 16] [0] = true ↔
      ([0] : List Int) ≠ [] ∧ ((3 : Int) - 1) ∉ ([0] : List Int) ∧
        (-1 : Int) ∉ ([0] : List Int) ∧
        1 < sumLastAxes [16, 16, 16] (([0] : List Int).getLastD 0 + 1) :=
  withoutLastDimInReduce_iff [16, 16, 16] [0] (by simp)

/-- Operator pattern kinds (`framework::OpPatternKind`). -/
inductive OpPatternKind
  | kElementWise
  | kBroadcast
  | kInjective
  | kReduction
  | kOutEWiseFusable
  | kNonFusible
  deriving DecidableEq, Repr

/-- The operator graph as the scheduler sees it: nodes are identifiers, each
with its consumer/producer adjacency (in edge order), its pattern kind and
operator name, the identifiers of its (first) output data node and of its
first input data node (`inlinks_in_order()[0]->source()->id()`), and the
shape table keyed by data-node identifier. -/
structure OpGraph where
  consumersOf : Nat → List Nat
  producersOf : Nat → List Nat
  pattern : Nat → OpPatternKind
  opName : Nat → String
  outId : Nat → Nat
  firstInId : Nat → Nat
  shape : Nat → List Nat

/-- Model of `GetConsumersInSet`: the consumers of `n` that belong to `s`. -/
def getConsumersInSet (g : OpGraph) (n : Nat) (s : List Nat) : List Nat :=
  (g.consumersOf n).filter (· ∈ s)

/-- Model of `GetProducersInSet`: the producers of `n` that belong to `s`. -/
def getProducersInSet (g : OpGraph) (n : Nat) (s : List Nat) : List Nat :=
  (g.producersOf n).filter (· ∈ s)

/-- Model of `IsConstOp`: the node's operator name is in the fixed constant-producer set. -/
def isConstOp (g : OpGraph) (n : Nat) : Bool :=
  g.opName n == "const_scalar" || g.opName n == "fill_constant" || g.opName n == "arange"

/-- Model of `GetOutputShape`: shape of the node's output data node. -/
def getOutputShape (g : OpGraph) (n : Nat) : List Nat := g.shape (g.outId n)

/-- Model of `GetInputShape`: shape of the output of the node's first producer. -/
def getInputShape (g : OpGraph) (n : Nat) : List Nat :=
  g.shape (g.outId ((g.producersOf n).headD 0))

/-- Model of `FindReducerInRoute`: breadth-first search from the queue through
`visitor` steps, returning the first Reduction node encountered.  The C++
queue walk carries no visited set and is bounded only by the graph being
acyclic; the fuel argument caps the number of dequeue steps. -/
def findReducerInRoute (g : OpGraph) (s : List Nat)
    (visitor : OpGraph → Nat → List Nat → List Nat) : Nat → List Nat → Option Nat
  | 0, _ => none
  | _ + 1, [] => none
  | fuel + 1, c :: rest =>
    let nexts := visitor g c s
    match nexts.find? (fun x => decide (g.pattern x = OpPatternKind.kReduction)) with
    | some r => some r
    | none => findReducerInRoute g s visitor fuel (rest ++ nexts)

/-- Model of `CanbeInline(node, consumers, reducer, laster, group, nodes_set, shape_dict)`,
with the group represented by its output-node set.  `reducer` is the global
reducer (null modelled as `none`), `laster` the last node in topological
order. -/
def canbeInline (g : OpGraph) (fuel : Nat) (node : Nat) (consumers : List Nat)
    (reducer : Option Nat) (laster : Nat) (outputNodes nodesSet : List Nat) : Bool :=
  if node ∈ outputNodes then false
  else if isConstOp g node then true
  else if consumers.any (fun c => decide (g.pattern c = OpPatternKind.kReduction)) then false
  else if g.pattern node = OpPatternKind.kReduction then false
  else if consumers.length = 1 then true
  else
    match reducer with
    | some r =>
      if (findReducerInRoute g nodesSet getConsumersInSet fuel [node]).isSome ∧
          ¬ (findReducerInRoute g nodesSet getProducersInSet fuel [node]).isSome then
        if (getOutputShape g node).prod ≠ (getInputShape g r).prod then true
        else false
      else false
    | none =>
      if (getOutputShape g node).prod ≠ (getOutputShape g laster).prod then true
      else false

/-- The decision procedure exactly as Claim C2 words it: ordered first-match
rules, with rule 6 as a single conjunction. -/
def canbeInlineClaim (g : OpGraph) (fuel : Nat) (node : Nat) (consumers : List Nat)
    (reducer : Option Nat) (laster : Nat) (outputNodes nodesSet : List Nat) : Bool :=
  if node ∈ outputNodes then false
  else if isConstOp g node then true
  else if consumers.any (fun c => decide (g.pattern c = OpPatternKind.kReduction)) then false
  else if g.pattern node = OpPatternKind.kReduction then false
  else if consumers.length = 1 then true
  else
    match reducer with
    | some r =>
      (findReducerInRoute g nodesSet getConsumersInSet fuel [node]).isSome &&
        !(findReducerInRoute g nodesSet getProducersInSet fuel [node]).isSome &&
        decide ((getOutputShape g node).prod ≠ (getInputShape g r).prod)
    | none => decide ((getOutputShape g node).prod ≠ (getOutputShape g laster).prod)

/-- Claim C2: `CanbeInline` implements exactly the ordered first-match rules
stated in the claim — output nodes are not inlined; constant producers are;
nodes with a Reduction consumer are not; Reduction nodes are not;
single-consumer nodes are; otherwise the global-reducer (or last-node)
element-count comparison decides. -/
theorem canbeInline_eq_claim (g : OpGraph) (fuel : Nat) (node : Nat)
    (consumers : List Nat) (reducer : Option Nat) (laster : Nat)
    (outputNodes nodesSet : List Nat) :
    canbeInline g fuel node consumers reducer laster outputNodes nodesSet =
      canbeInlineClaim g fuel node consumers reducer laster outputNodes nodesSet := by
  unfold canbeInline canbeInlineClaim
  rcases reducer with _ | r
  · split_ifs <;> simp_all
  · split_ifs <;> simp_all

/-- Outcome of the backward axis scan at the head of
`LoopAssignReduceWithLast`: either the `LOG(FATAL)` fired, or the loop ended
with the recorded `index` (an `int`, possibly `-1`) and accumulated `lane`. -/
inductive ScanOut
  | fatal
  | stop (index : Int) (lane : Nat)
  deriving DecidableEq, Repr

/-- The backward scan of `LoopAssignReduceWithLast` (source lines 470-484),
walking `index` from `axes.size()-1` downward: break at a non-contiguous axis
pair; otherwise multiply the axis extent into `lane`; fatal when `index`
reaches 0 with `lane ≤ max_num_threads`; break once `lane ≥ max_num_threads/2`,
additionally decrementing `index` when `lane ≤ max_num_threads`. -/
def withLastScanGo (inshape axes : List Nat) (T : Nat) : Nat → Nat → ScanOut
  | 0, lane =>
    if 1 < axes.length ∧ axes.getD 0 0 + 1 ≠ axes.getD 1 0 then .stop 0 lane
    else
      let lane2 := lane * inshape.getD (axes.getD 0 0) 0
      if lane2 ≤ T then .fatal
      else if T / 2 ≤ lane2 then .stop 0 lane2
      else .stop (-1) lane2
  | i + 1, lane =>
    if i + 2 < axes.length ∧ axes.getD (i + 1) 0 + 1 ≠ axes.getD (i + 2) 0 then
      .stop ((i : Int) + 1) lane
    else
      let lane2 := lane * inshape.getD (axes.getD (i + 1) 0) 0
      if T / 2 ≤ lane2 then
        if lane2 ≤ T then .stop (i : Int) lane2 else .stop ((i : Int) + 1) lane2
      else withLastScanGo inshape axes T i lane2

/-- The scan started as in the source: `index = axes.size() - 1`, `lane = 1`
(the loop body never runs for an empty axis list). -/
def withLastScan (inshape axes : List Nat) (T : Nat) : ScanOut :=
  if axes.isEmpty then .stop (-1) 1
  else withLastScanGo inshape axes T (axes.length - 1) 1

/-- The lane accumulated by the scan right after multiplying the extent at
axis-list position `i`: the product of `inshape[axes[j]]` for `j ≥ i`. -/
def laneAt (inshape axes : List Nat) (i : Nat) : Nat :=
  ((axes.drop i).map (fun a => inshape.getD a 0)).prod

/-- Downward divisor search: try `i, i-1, ...` while the candidate exceeds
`low`, returning the first divisor of `n` found (`k` bounds the number of
candidates, chosen large enough at every use). -/
def searchDivDownGT (n low : Nat) : Nat → Nat → Option Nat
  | 0, _ => none
  | k + 1, i =>
    if i ≤ low then none
    else if n % i = 0 then some i
    else searchDivDownGT n low k (i - 1)

/-- The staging decision taken by `LoopAssignReduceWithLast` after the scan:
fatal; split of the last reduce axis (`lane > T`, scan stopped at the last
axis); split of a middle boundary axis; silent fall-through when the middle
divisor search finds nothing (its bound check cannot fire); or no split at
all (`lane ≤ T`). -/
inductive WithLastPlan
  | fatal
  | splitLast (axis factor : Nat)
  | splitMid (axis factor : Nat)
  | midNoDivisor (axis : Nat)
  | noSplit (index : Int) (lane : Nat)
  deriving DecidableEq, Repr

/-- The control-flow skeleton of `LoopAssignReduceWithLast` (source lines
461-523) reduced to its staging decision.  In the `lane > max_num_threads`
branch: if the scan stopped at the last reduce axis, divisors of `lane` are
searched downward from `max_num_threads` through `max_num_threads/2`
(`CHECK_GE(idx, max_num_threads/2)` turns an empty search into a fatal
failure); otherwise divisors of the boundary axis extent are searched in
`(T/2/tail, T/tail]`, where the guarding `CHECK_GT(idx, (T/2)/tail)` can
never fire because the loop condition already enforces it. -/
def loopAssignReduceWithLastPlan (inshape axes : List Nat) (T : Nat) : WithLastPlan :=
  match withLastScan inshape axes T with
  | .fatal => .fatal
  | .stop index lane =>
    if T < lane then
      if index = (axes.length : Int) - 1 then
        match searchDivDownGT lane (T / 2 - 1) (T - T / 2 + 1) T with
        | some d => .splitLast (axes.getD index.toNat 0) d
        | none => .fatal
      else
        let axis := axes.getD index.toNat 0
        let pref := inshape.getD axis 0
        let tl := lane / pref
        let low := (T / 2) / tl
        match searchDivDownGT pref low (T / tl - low) (T / tl) with
        | some d => .splitMid axis d
        | none => .midNoDivisor axis
    else .noSplit index lane

theorem withLastScanGo_stop_le (inshape axes : List Nat) (T : Nat) :
    ∀ i lane j l, withLastScanGo inshape axes T i lane = .stop j l → j ≤ (i : Int) := by
  intro i
  induction i with
  | zero =>
    intro lane j l h
    rw [withLastScanGo] at h
    split at h
    · cases h; exact le_refl _
    · dsimp only at h
      split at h
      · cases h
      · split at h
        · cases h; exact le_refl _
        · cases h; norm_num
  | succ i ih =>
    intro lane j l h
    rw [withLastScanGo] at h
    split at h
    · cases h; exact le_refl _
    · dsimp only at h
      split at h
      · split at h
        · cases h; omega
        · cases h; exact le_refl _
      · exact (ih _ j l h).trans (by omega)

theorem laneAt_succ_mul (inshape axes : List Nat) (i : Nat) (hi : i < axes.length) :
    laneAt inshape axes i = laneAt inshape axes (i + 1) * inshape.getD (axes.getD i 0) 0 := by
  unfold laneAt
  rw [List.drop_eq_getElem_cons hi, List.map_cons, List.prod_cons,
    List.getD_eq_getElem axes 0 hi, Nat.mul_comm]

theorem withLastScanGo_fatal (inshape axes : List Nat) (T : Nat)
    (hcontig : ∀ j, j + 1 < axes.length → axes.getD j 0 + 1 = axes.getD (j + 1) 0)
    (hmid : ∀ j, 1 ≤ j → j < axes.length → laneAt inshape axes j < T / 2)
    (htot : laneAt inshape axes 0 ≤ T) :
    ∀ i, i < axes.length →
      withLastScanGo inshape axes T i (laneAt inshape axes (i + 1)) = .fatal := by
  intro i
  induction i with
  | zero =>
    intro hi
    rw [withLastScanGo]
    rw [if_neg (by
      rintro ⟨h1, h2⟩
      exact h2 (hcontig 0 h1))]
    dsimp only
    rw [← laneAt_succ_mul inshape axes 0 hi]
    rw [if_pos htot]
  | succ i ih =>
    intro hi
    rw [withLastScanGo]
    rw [if_neg (by
      rintro ⟨h1, h2⟩
      exact h2 (hcontig (i + 1) h1))]
    dsimp only
    rw [← laneAt_succ_mul inshape axes (i + 1) hi]
    rw [if_neg (by
      have := hmid (i + 1) (by omega) hi
      omega)]
    exact ih (by omega)

/-- Claim C10 (amended): `LoopAssignReduceWithLast` signals a fatal error
whenever its backward scan over the contiguous trailing run of reduce axes
reaches axis index 0 with accumulated lane at most `T`; for a reduction over
all axes this happens — and the function aborts — exactly when the total
reduced element count is at most `T` AND every intermediate accumulated lane
(the suffix products at positions `≥ 1`) stays strictly below `T/2`, since
otherwise the scan breaks off early without the fatal check.  (The original
claim asserted the abort for EVERY all-axis reduction with total count
`≤ T`.) -/
theorem withLastScan_reach_zero_fatal (inshape axes : List Nat) (T : Nat)
    (hne : axes ≠ [])
    (hcontig : ∀ j, j + 1 < axes.length → axes.getD j 0 + 1 = axes.getD (j + 1) 0)
    (hmid : ∀ j, 1 ≤ j → j < axes.length → laneAt inshape axes j < T / 2)
    (htot : laneAt inshape axes 0 ≤ T) :
    withLastScan inshape axes T = .fatal ∧
      loopAssignReduceWithLastPlan inshape axes T = .fatal := by
  have hlen : 1 ≤ axes.length := by
    cases axes with
    | nil => exact absurd rfl hne
    | cons a t => simp
  have hlane1 : laneAt inshape axes (axes.length - 1 + 1) = 1 := by
    unfold laneAt
    rw [show axes.length - 1 + 1 = axes.length from by omega]
    simp
  have hscan : withLastScan inshape axes T = .fatal := by
    unfold withLastScan
    rw [if_neg (by simpa [List.isEmpty_iff] using hne)]
    have := withLastScanGo_fatal inshape axes T hcontig hmid htot
      (axes.length - 1) (by omega)
    rwa [hlane1] at this
  refine ⟨hscan, ?_⟩
  unfold loopAssignReduceWithLastPlan
  rw [hscan]

/-- Claim C10 counterexample: reducing ALL axes of shape `[2, 512]` with
`T = 1024` has total reduced element count `1024 ≤ T`, yet the scan breaks
off at the last axis (lane `512 ∈ [T/2, T]`) before reaching index 0, no
fatal error is raised, and the staging decision is a plain no-split plan. -/
theorem withLastScan_all_axes_no_fatal :
    laneAt [2, 512] [0, 1] 0 ≤ 1024 ∧
      withLastScan [2, 512] [0, 1] 1024 ≠ .fatal ∧
      loopAssignReduceWithLastPlan [2, 512] [0, 1] 1024 = .noSplit 0 512 := by
  refine ⟨by decide, ?_, by decide⟩
  intro h
  have : withLastScan [2, 512] [0, 1] 1024 = .stop 0 512 := by decide
  rw [this] at h
  cases h

/-- Witness for the amended Claim C10: reducing all axes of shape `[2, 2]`
with `T = 1024` (total `4 ≤ T`, intermediate lane `2 < 512`) aborts. -/
theorem withLastScan_reach_zero_fatal_witness :
    withLastScan [2, 2] [0, 1] 1024 = .fatal ∧
      loopAssignReduceWithLastPlan [2, 2] [0, 1] 1024 = .fatal :=
  withLastScan_reach_zero_fatal [2, 2] [0, 1] 1024 (by decide)
    (by intro j hj; have hj0 : j = 0 := by simp at hj; omega
        subst hj0; decide)
    (by intro j h1 h2; have hj1 : j = 1 := by simp at h2; omega
        subst hj1; decide)
    (by decide)

theorem searchDivDownGT_some_iff (n low : Nat) :
    ∀ k i, i ≤ low + k → ∀ d,
      (searchDivDownGT n low k i = some d ↔
        low < d ∧ d ≤ i ∧ n % d = 0 ∧ ∀ e, d < e → e ≤ i → n % e ≠ 0) := by
  intro k
  induction k with
  | zero =>
    intro i hk d
    rw [searchDivDownGT]
    constructor
    · intro h; cases h
    · rintro ⟨h1, h2, _, _⟩; omega
  | succ k ih =>
    intro i hk d
    rw [searchDivDownGT]
    by_cases hlow : i ≤ low
    · rw [if_pos hlow]
      constructor
      · intro h; cases h
      · rintro ⟨h1, h2, _, _⟩; omega
    · rw [if_neg hlow]
      by_cases hdiv : n % i = 0
      · rw [if_pos hdiv]
        constructor
        · intro h
          cases h
          exact ⟨by omega, le_refl _, hdiv, fun e he1 he2 => by omega⟩
        · rintro ⟨h1, h2, h3, h4⟩
          by_cases hdi : d = i
          · rw [hdi]
          · exact absurd hdiv (h4 i (by omega) (le_refl _))
      · rw [if_neg hdiv]
        rw [ih (i - 1) (by omega) d]
        constructor
        · rintro ⟨h1, h2, h3, h4⟩
          refine ⟨h1, by omega, h3, fun e he1 he2 => ?_⟩
          by_cases hei : e = i
          · rw [hei]; exact hdiv
          · exact h4 e he1 (by omega)
        · rintro ⟨h1, h2, h3, h4⟩
          have hdi : d ≠ i := fun h => hdiv (h ▸ h3)
          refine ⟨h1, by omega, h3, fun e he1 he2 => h4 e he1 (by omega)⟩

theorem searchDivDownGT_none_iff (n low : Nat) :
    ∀ k i, i ≤ low + k →
      (searchDivDownGT n low k i = none ↔ ∀ e, low < e → e ≤ i → n % e ≠ 0) := by
  intro k
  induction k with
  | zero =>
    intro i hk
    rw [searchDivDownGT]
    exact ⟨fun _ e he1 he2 => by omega, fun _ => rfl⟩
  | succ k ih =>
    intro i hk
    rw [searchDivDownGT]
    by_cases hlow : i ≤ low
    · rw [if_pos hlow]
      exact ⟨fun _ e he1 he2 => by omega, fun _ => rfl⟩
    · rw [if_neg hlow]
      by_cases hdiv : n % i = 0
      · rw [if_pos hdiv]
        constructor
        · intro h; cases h
        · intro h
          exact absurd hdiv (h i (by omega) (le_refl _))
      · rw [if_neg hdiv]
        rw [ih (i - 1) (by omega)]
        constructor
        · intro h e he1 he2
          by_cases hei : e = i
          · rw [hei]; exact hdiv
          · exact h e he1 (by omega)
        · intro h e he1 he2
          exact h e he1 (by omega)

theorem withLastScan_stop_last_lane (inshape axes : List Nat) (T lane : Nat)
    (hne : axes ≠ [])
    (hscan : withLastScan inshape axes T = .stop ((axes.length : Int) - 1) lane) :
    lane = inshape.getD (axes.getD (axes.length - 1) 0) 0 := by
  have hlen : 1 ≤ axes.length := by
    cases axes with
    | nil => exact absurd rfl hne
    | cons a t => simp
  unfold withLastScan at hscan
  rw [if_neg (by simpa [List.isEmpty_iff] using hne)] at hscan
  rcases hL : axes.length - 1 with _ | i
  · have hlen1 : axes.length = 1 := by omega
    rw [hL] at hscan
    rw [withLastScanGo] at hscan
    rw [if_neg (by rw [hlen1]; rintro ⟨h1, _⟩; omega)] at hscan
    dsimp only at hscan
    split at hscan
    · cases hscan
    · split at hscan
      · injection hscan with h1 h2
        rw [← h2, one_mul]
      · injection hscan with h1 h2
        rw [hlen1] at h1
        norm_num at h1
  · have hlen2 : axes.length = i + 2 := by omega
    rw [hL] at hscan
    rw [withLastScanGo] at hscan
    rw [if_neg (by rw [hlen2]; rintro ⟨h1, _⟩; omega)] at hscan
    dsimp only at hscan
    split at hscan
    · split at hscan
      · injection hscan with h1 h2
        rw [hlen2] at h1
        omega
      · injection hscan with h1 h2
        rw [← h2, one_mul]
    · have := withLastScanGo_stop_le inshape axes T i _ _ _ hscan
      rw [hlen2] at this
      omega

/-- Claim C3: when the backward scan of `LoopAssignReduceWithLast` stops at
the last reduce axis with accumulated lane strictly greater than `T`, the
lane equals that axis's extent and the function splits the axis by the
greatest divisor of that extent in `[T/2, T]`; if the extent has no divisor
in that range, the `CHECK_GE(idx, max_num_threads/2)` bound turns into a
fatal planning failure. -/
theorem withLast_last_axis_split (inshape axes : List Nat) (T lane : Nat)
    (hne : axes ≠ []) (hT : 2 ≤ T)
    (hscan : withLastScan inshape axes T = .stop ((axes.length : Int) - 1) lane)
    (hlane : T < lane) :
    lane = inshape.getD (axes.getD (axes.length - 1) 0) 0 ∧
      (∀ d, T / 2 ≤ d → d ≤ T → lane % d = 0 → (∀ e, d < e → e ≤ T → lane % e ≠ 0) →
        loopAssignReduceWithLastPlan inshape axes T =
          .splitLast (axes.getD (axes.length - 1) 0) d) ∧
      ((∀ e, T / 2 ≤ e → e ≤ T → lane % e ≠ 0) →
        loopAssignReduceWithLastPlan inshape axes T = .fatal) := by
  have hext := withLastScan_stop_last_lane inshape axes T lane hne hscan
  have hlen : 1 ≤ axes.length := by
    cases axes with
    | nil => exact absurd rfl hne
    | cons a t => simp
  have htoNat : (((axes.length : Int) - 1)).toNat = axes.length - 1 := by omega
  have hfuel : T ≤ (T / 2 - 1) + (T - T / 2 + 1) := by omega
  refine ⟨hext, ?_, ?_⟩
  · intro d hd1 hd2 hd3 hd4
    unfold loopAssignReduceWithLastPlan
    rw [hscan]
    dsimp only
    rw [if_pos hlane, if_pos rfl]
    have hsearch : searchDivDownGT lane (T / 2 - 1) (T - T / 2 + 1) T = some d := by
      rw [searchDivDownGT_some_iff lane (T / 2 - 1) (T - T / 2 + 1) T hfuel d]
      exact ⟨by omega, hd2, hd3, hd4⟩
    rw [hsearch, htoNat]
  · intro hnone
    unfold loopAssignReduceWithLastPlan
    rw [hscan]
    dsimp only
    rw [if_pos hlane, if_pos rfl]
    have hsearch : searchDivDownGT lane (T / 2 - 1) (T - T / 2 + 1) T = none := by
      rw [searchDivDownGT_none_iff lane (T / 2 - 1) (T - T / 2 + 1) T hfuel]
      intro e he1 he2
      exact hnone e (by omega) he2
    rw [hsearch]

/-- Witness for Claim C3: a single reduce axis of extent 2048 with `T = 1024`
stops the scan at that axis with lane `2048 > 1024` and is split by 1024, the
greatest divisor of 2048 in `[512, 1024]`. -/
theorem withLast_last_axis_split_witness :
    loopAssignReduceWithLastPlan [2048] [0] 1024 = .splitLast 0 1024 :=
  (withLast_last_axis_split [2048] [0] 1024 2048 (by decide) (by decide)
      (by decide) (by decide)).2.1 1024 (by decide) (by decide) (by decide)
    (by intro e he1 he2; omega)

/-- Model of `ir_sch.Split(block, pos, {-1, k})` on the extent list of one block's loop
nest: the loop at `pos` of extent `e` becomes two loops of extents `e / k`
and `k`. -/
def splitAt2 (loops : List Nat) (pos k : Nat) : List Nat :=
  loops.take pos ++ [loops.getD pos 0 / k, k] ++ loops.drop (pos + 1)

/-- Model of `ir_sch.Fuse(block, {pos, pos+1})`: the adjacent loops at `pos` and
`pos+1` become one loop whose extent is their product. -/
def fuseAt (loops : List Nat) (pos : Nat) : List Nat :=
  loops.take pos ++ [loops.getD pos 0 * loops.getD (pos + 1) 0] ++ loops.drop (pos + 2)

/-- Repeated `Fuse` at the same position, as the fuse loops of
`LoopOrderAssignReduce` perform. -/
def fuseTimes (pos : Nat) : List Nat → Nat → List Nat
  | loops, 0 => loops
  | loops, k + 1 => fuseTimes pos (fuseAt loops pos) k

/-- Model of `ir_sch.Reorder(block, order)`: permute loops by the index list. -/
def reorderLoops (loops : List Nat) (order : List Nat) : List Nat :=
  order.map (fun i => loops.getD i 0)

/-- Model of `LoopOrderAssignReduce` (source lines 350-398) on the extent list:
reorder non-reduce axes first, optionally stop there; otherwise fuse the
trailing non-reduce run, split the thread axis by its greatest divisor
`≤ max_num_threads` when oversized (the search always succeeds since 1
divides), and fuse the leading axes. -/
def loopOrderAssignReduce (loops0 : List Nat) (axes : List Nat) (T : Nat)
    (justReorder : Bool) : List Nat :=
  let n := loops0.length
  let order := (List.range n).filter (fun i => decide (i ∉ axes)) ++ axes
  let loops1 := reorderLoops loops0 order
  if justReorder then loops1
  else
    let lastDimNum := n - axes.getLastD 0 - 1
    let index := n - lastDimNum - axes.length
    let loops2 := fuseTimes index loops1 (lastDimNum - 1)
    let psize := loops2.getD index 0
    let loops3 :=
      if T < psize then
        match searchDivDownGT psize 0 T T with
        | some d => splitAt2 loops2 index d
        | none => loops2
      else loops2
    fuseTimes 0 loops3 (index - 1)

/-- The "insert 1" splits of `LoopAssignReduceWithoutLast` (source lines
443-447): `k` times, split the loop at `pos` by its own extent, creating a
leading extent-1 loop. -/
def insertOnes (pos : Nat) : List Nat → Nat → List Nat
  | loops, 0 => loops
  | loops, k + 1 => insertOnes pos (splitAt2 loops pos (loops.getD pos 0)) k

/-- The "return insert 1" fusing of `LoopAssignReduceWithoutLast` (source
lines 450-458): walk `axes.size()` steps; an extent-1 loop at `start_index`
is fused into its predecessor, otherwise the index advances. -/
def returnInsertOnes : List Nat → Nat → Nat → List Nat
  | loops, _, 0 => loops
  | loops, si, k + 1 =>
    if loops.getD si 0 = 1 then returnInsertOnes (fuseAt loops (si - 1)) si k
    else returnInsertOnes loops (si + 1) k

/-- The backward scan of `LoopAssignReduceWithoutLast` (source lines
412-429), started with the trailing-lane product and breaking once the lane
exceeds `max_num_threads / 2`; returns `(index, pos, lane)` as left by the
loop. -/
def withoutLastScanGo (inshape axes : List Nat) (T : Nat) : Nat → Nat → Int × Nat × Nat
  | 0, lane =>
    if 1 < axes.length ∧ axes.getD 0 0 + 1 ≠ axes.getD 1 0 then (0, axes.getD 1 0, lane)
    else
      let lane2 := lane * inshape.getD (axes.getD 0 0) 0
      if T / 2 < lane2 then (0, axes.getD 0 0, lane2)
      else (-1, axes.getD 0 0, lane2)
  | i + 1, lane =>
    if i + 2 < axes.length ∧ axes.getD (i + 1) 0 + 1 ≠ axes.getD (i + 2) 0 then
      ((i : Int) + 1, axes.getD (i + 2) 0, lane)
    else
      let lane2 := lane * inshape.getD (axes.getD (i + 1) 0) 0
      if T / 2 < lane2 then ((i : Int) + 1, axes.getD (i + 1) 0, lane2)
      else withoutLastScanGo inshape axes T i lane2

/-- Outcome of `LoopAssignReduceWithoutLast` on one block: whether a fatal
check fired, and the block's loop-extent list afterwards (unchanged when
fatal). -/
structure WithoutLastResult where
  fatal : Bool
  loops : List Nat
  deriving DecidableEq, Repr

/-- Tail of `LoopAssignReduceWithoutLast` after the scan and optional
boundary split: insert-1 splits at `pos`, `LoopOrderAssignReduce`, then the
return-insert-1 fusing. -/
def finishWithoutLast (loops : List Nat) (pos : Nat) (index : Int)
    (axes : List Nat) (T : Nat) : WithoutLastResult :=
  let loops1 := insertOnes pos loops (((axes.length : Int) - 1 - index).toNat)
  let loops2 := loopOrderAssignReduce loops1 axes T false
  let si := loops2.length - axes.length
  ⟨false, returnInsertOnes loops2 si axes.length⟩

/-- Model of `LoopAssignReduceWithoutLast` (source lines 400-459) over the extent
list of the named block.  `CHECK(axes.size())` and
`CHECK_LE(lane, max_num_threads / 2)` both sit before the first schedule
mutation, so on their failure the loop nest is returned unchanged with the
fatal flag set; likewise `CHECK_GT(idx - 1, (T/2)/tail)` in the boundary
split loop fires before any split has happened. -/
def loopAssignReduceWithoutLast (loops0 inshape axes : List Nat) (T : Nat) :
    WithoutLastResult :=
  if axes.isEmpty then ⟨true, loops0⟩
  else
    let lane0 := (inshape.drop (axes.getLastD 0 + 1)).prod
    if T / 2 < lane0 then ⟨true, loops0⟩
    else
      let scanRes := withoutLastScanGo inshape axes T (axes.length - 1) lane0
      let index := scanRes.1
      let pos := scanRes.2.1
      let lane := scanRes.2.2
      if T / 2 < lane then
        let axisPos := axes.getD index.toNat 0
        let pref := inshape.getD axisPos 0
        let tl := lane / pref
        let low := (T / 2) / tl
        match searchDivDownGT pref low (T / tl - low) (T / tl) with
        | some d => finishWithoutLast (splitAt2 loops0 axisPos d) pos index axes T
        | none => ⟨true, loops0⟩
      else finishWithoutLast loops0 pos index axes T

/-- Claim C4: `LoopAssignReduceWithoutLast` requires the product of the
input-shape dimensions strictly after the last reduce axis to be at most
`T/2`; on every violating input it fails fatally before performing any
schedule transformation, leaving the loop-nest IR unchanged. -/
theorem withoutLast_precondition_fatal (loops0 inshape axes : List Nat) (T : Nat)
    (hne : axes ≠ [])
    (hviol : T / 2 < (inshape.drop (axes.getLastD 0 + 1)).prod) :
    loopAssignReduceWithoutLast loops0 inshape axes T =
      ⟨true, loops0⟩ := by
  unfold loopAssignReduceWithoutLast
  rw [if_neg (by simpa [List.isEmpty_iff] using hne)]
  dsimp only
  rw [if_pos hviol]

/-- Witness for Claim C4: `inshape = [4, 600]`, `axes = [0]`, `T = 1024` —
the trailing lane 600 exceeds `T/2 = 512`, the function aborts and the
block's loop nest `[2400]` is untouched. -/
theorem withoutLast_precondition_fatal_witness :
    loopAssignReduceWithoutLast [2400] [4, 600] [0] 1024 = ⟨true, [2400]⟩ :=
  withoutLast_precondition_fatal [2400] [4, 600] [0] 1024 (by decide) (by decide)

/-- The descending extent-matching do-while shared by `LoopComputeAt`
(source lines 1241-1250) and the tail of `MergeReduceLoop` (lines
1178-1193): starting from index `s`, step down while the two loop extents at
the index differ; `some i` is the first (deepest) index with equal extents,
and when even index 0 differs the loop exits without calling `MergeLoops`
(`none`). -/
def mergeScan (nl ml : List Nat) : Nat → Option Nat
  | 0 => if nl.getD 0 0 ≠ ml.getD 0 0 then none else some 0
  | i + 1 => if nl.getD (i + 1) 0 ≠ ml.getD (i + 1) 0 then mergeScan nl ml i else some (i + 1)

/-- The merge depth chosen by `LoopComputeAt` for a non-Reduction node:
the scan starts at `min(node_loops.size(), master_loops.size()) - 1`. -/
def loopComputeAtIndex (nl ml : List Nat) : Option Nat :=
  mergeScan nl ml (min nl.length ml.length - 1)

theorem mergeScan_some (nl ml : List Nat) :
    ∀ s i, mergeScan nl ml s = some i →
      i ≤ s ∧ nl.getD i 0 = ml.getD i 0 ∧
        ∀ j, i < j → j ≤ s → nl.getD j 0 ≠ ml.getD j 0 := by
  intro s
  induction s with
  | zero =>
    intro i h
    rw [mergeScan] at h
    split at h
    · cases h
    · cases h
      exact ⟨le_refl _, by omega, fun j hj1 hj2 => by omega⟩
  | succ s ih =>
    intro i h
    rw [mergeScan] at h
    split at h
    · rcases ih i h with ⟨h1, h2, h3⟩
      refine ⟨by omega, h2, fun j hj1 hj2 => ?_⟩
      by_cases hj : j = s + 1
      · rw [hj]
        assumption
      · exact h3 j hj1 (by omega)
    · cases h
      refine ⟨le_refl _, by omega, fun j hj1 hj2 => by omega⟩

theorem mergeScan_none_of (nl ml : List Nat) :
    ∀ s, (∀ j, j ≤ s → nl.getD j 0 ≠ ml.getD j 0) → mergeScan nl ml s = none := by
  intro s
  induction s with
  | zero =>
    intro h
    rw [mergeScan, if_pos (h 0 (le_refl _))]
  | succ s ih =>
    intro h
    rw [mergeScan, if_pos (h (s + 1) (le_refl _))]
    exact ih (fun j hj => h j (by omega))

/-- Claim C6 (amended): for a non-Reduction node with a distinct master,
`LoopComputeAt` merges at the deepest index — scanning downward from
`min(len(node_loops), len(master_loops)) - 1` — at which the two loop
extents are equal; when NO index has equal extents the do-while exits
without calling `MergeLoops` at all, so the node is left unmerged (it is
NOT merged at index 0). -/
theorem loopComputeAt_merge_index (nl ml : List Nat)
    (hmin : 1 ≤ min nl.length ml.length) :
    (∀ i, loopComputeAtIndex nl ml = some i →
      i < min nl.length ml.length ∧ nl.getD i 0 = ml.getD i 0 ∧
        ∀ j, i < j → j < min nl.length ml.length → nl.getD j 0 ≠ ml.getD j 0) ∧
    ((∀ j, j < min nl.length ml.length → nl.getD j 0 ≠ ml.getD j 0) →
      loopComputeAtIndex nl ml = none) := by
  constructor
  · intro i h
    rcases mergeScan_some nl ml (min nl.length ml.length - 1) i h with ⟨h1, h2, h3⟩
    exact ⟨by omega, h2, fun j hj1 hj2 => h3 j hj1 (by omega)⟩
  · intro h
    exact mergeScan_none_of nl ml (min nl.length ml.length - 1)
      (fun j hj => h j (by omega))

/-- Claim C6 counterexample: node loops `[2]`, master loops `[3]` — no index
has equal extents, and `LoopComputeAt` performs NO merge (`none`), not a
merge at index 0 as the claim states. -/
theorem loopComputeAt_no_match_no_merge :
    loopComputeAtIndex [2] [3] ≠ some 0 ∧ loopComputeAtIndex [2] [3] = none := by
  constructor
  · intro h
    cases h
  · rfl

/-- Witness for the amended Claim C6: node loops `[2, 3]`, master loops
`[2, 4]` — the deepest matching index is 0 and the scan returns it. -/
theorem loopComputeAt_merge_index_witness :
    0 < min ([2, 3] : List Nat).length ([2, 4] : List Nat).length ∧
      ([2, 3] : List Nat).getD 0 0 = ([2, 4] : List Nat).getD 0 0 ∧
      ∀ j, 0 < j → j < min ([2, 3] : List Nat).length ([2, 4] : List Nat).length →
        ([2, 3] : List Nat).getD j 0 ≠ ([2, 4] : List Nat).getD j 0 :=
  (loopComputeAt_merge_index [2, 3] [2, 4] (by decide)).1 0 (by decide)

/-- The extent-matching forward while of `MergeReduceLoop` (source lines
1158-1165): `index` starts at `-1` and advances while the staged tensors'
loop extents agree, breaking as soon as `index + 1` reaches either size. -/
def matchPrefixGo (src dst : List Nat) : Nat → Nat → Int
  | 0, j => (j : Int) - 1
  | k + 1, j =>
    if src.getD j 0 = dst.getD j 0 then
      if src.length = j + 1 ∨ dst.length = j + 1 then (j : Int)
      else matchPrefixGo src dst k (j + 1)
    else (j : Int) - 1

/-- The index handed by `MergeReduceLoop`'s staged-tensor loop to
`MergeLoops` (the fuel `src.length` over-approximates the number of
iterations the while loop can take). -/
def matchPrefixIndex (src dst : List Nat) : Int :=
  matchPrefixGo src dst src.length 0

/-- The bound checks at the head of `MergeLoops` (source lines 830-835):
a negative index returns early; otherwise `CHECK_GT(src.size(), index)` and
`CHECK_GT(dst.size(), index)` must hold. -/
def mergeLoopsBoundOk (srcLen dstLen : Nat) (index : Int) : Bool :=
  if index < 0 then true
  else decide (index < (srcLen : Int)) && decide (index < (dstLen : Int))

theorem mergeLoopsBoundOk_of_lt {a b : Nat} {x : Int} (h1 : x < (a : Int))
    (h2 : x < (b : Int)) : mergeLoopsBoundOk a b x = true := by
  unfold mergeLoopsBoundOk
  split
  · rfl
  · rw [Bool.and_eq_true, decide_eq_true_eq, decide_eq_true_eq]
    exact ⟨h1, h2⟩

theorem matchPrefixGo_lt (src dst : List Nat) :
    ∀ k j, j < src.length → j < dst.length →
      matchPrefixGo src dst k j < min (src.length : Int) (dst.length : Int) := by
  intro k
  induction k with
  | zero =>
    intro j h1 h2
    rw [matchPrefixGo, lt_min_iff]
    constructor <;> omega
  | succ k ih =>
    intro j h1 h2
    rw [matchPrefixGo]
    split
    · split
      · rw [lt_min_iff]
        constructor <;> omega
      · rename_i hne
        push_neg at hne
        exact ih (j + 1) (by omega) (by omega)
    · rw [lt_min_iff]
      constructor <;> omega

theorem loopComputeAtIndex_some_lt (nl ml : List Nat) (i : Nat)
    (h : loopComputeAtIndex nl ml = some i) :
    i ≤ min nl.length ml.length - 1 :=
  (mergeScan_some nl ml (min nl.length ml.length - 1) i h).1

/-- Claim C7: every index handed to `MergeLoops` by `MergeReduceLoop` (the
staged-tensor while-scan index, and the minimum of the descending-scan index
with `min_index_loop`) and by `LoopComputeAt` (the descending-scan index) is
strictly below both loop-vector lengths, so the internal
`CHECK_GT(src.size(), index)` / `CHECK_GT(dst.size(), index)` bound checks
never fail on a reachable call. -/
theorem mergeLoops_depth_bound (src dst nl ml : List Nat) (i : Nat) (mloop : Int)
    (hsrc : src ≠ []) (hdst : dst ≠ []) (hnl : nl ≠ []) (hml : ml ≠ [])
    (hscan : loopComputeAtIndex nl ml = some i) :
    matchPrefixIndex src dst < min (src.length : Int) (dst.length : Int) ∧
      (i : Int) < min ((nl.length : Int)) ((ml.length : Int)) ∧
      min mloop (i : Int) < min ((nl.length : Int)) ((ml.length : Int)) ∧
      mergeLoopsBoundOk src.length dst.length (matchPrefixIndex src dst) = true ∧
      mergeLoopsBoundOk nl.length ml.length (i : Int) = true ∧
      mergeLoopsBoundOk nl.length ml.length (min mloop (i : Int)) = true := by
  have hsl : 0 < src.length := List.length_pos.mpr hsrc
  have hdl : 0 < dst.length := List.length_pos.mpr hdst
  have hnll : 0 < nl.length := List.length_pos.mpr hnl
  have hmll : 0 < ml.length := List.length_pos.mpr hml
  have h1 : matchPrefixIndex src dst < min (src.length : Int) (dst.length : Int) :=
    matchPrefixGo_lt src dst src.length 0 hsl hdl
  have h2 : i ≤ min nl.length ml.length - 1 := loopComputeAtIndex_some_lt nl ml i hscan
  have h2n : (i : Int) < (nl.length : Int) := by omega
  have h2m : (i : Int) < (ml.length : Int) := by omega
  have h3n : min mloop (i : Int) < (nl.length : Int) := by
    have := min_le_right mloop (i : Int)
    omega
  have h3m : min mloop (i : Int) < (ml.length : Int) := by
    have := min_le_right mloop (i : Int)
    omega
  rw [lt_min_iff] at h1
  refine ⟨by rw [lt_min_iff]; exact h1, by rw [lt_min_iff]; exact ⟨h2n, h2m⟩,
    by rw [lt_min_iff]; exact ⟨h3n, h3m⟩, ?_, ?_, ?_⟩
  · exact mergeLoopsBoundOk_of_lt h1.1 h1.2
  · exact mergeLoopsBoundOk_of_lt h2n h2m
  · exact mergeLoopsBoundOk_of_lt h3n h3m

/-- Witness for Claim C7 at concrete staged loops `[4, 8]`/`[4, 2]`, node
loops `[2, 5]`, master loops `[2, 7]` (deepest match index 0) and
`min_index_loop = 3`. -/
theorem mergeLoops_depth_bound_witness :
    matchPrefixIndex [4, 8] [4, 2] < min (([4, 8] : List Nat).length : Int)
        (([4, 2] : List Nat).length : Int) ∧
      ((0 : Nat) : Int) < min ((([2, 5] : List Nat).length : Int))
        ((([2, 7] : List Nat).length : Int)) ∧
      min 3 ((0 : Nat) : Int) < min ((([2, 5] : List Nat).length : Int))
        ((([2, 7] : List Nat).length : Int)) ∧
      mergeLoopsBoundOk ([4, 8] : List Nat).length ([4, 2] : List Nat).length
        (matchPrefixIndex [4, 8] [4, 2]) = true ∧
      mergeLoopsBoundOk ([2, 5] : List Nat).length ([2, 7] : List Nat).length
        ((0 : Nat) : Int) = true ∧
      mergeLoopsBoundOk ([2, 5] : List Nat).length ([2, 7] : List Nat).length
        (min 3 ((0 : Nat) : Int)) = true :=
  mergeLoops_depth_bound [4, 8] [4, 2] [2, 5] [2, 7] 0 3
    (by decide) (by decide) (by decide) (by decide) (by decide)

/-- The forward scan `check_sync_mark(start, m_id)` of `SyncThreadWithShared`
(source lines 1299-1315).  Its `for` condition is the constant
`exprs_inorder.size()`, so the C++ loop can only leave via the two returns;
an index reaching the end of the block list reads out of bounds, modelled
as `none`.  A block already in `sync_mark` yields `some false` (checked
BEFORE the name comparison), the master's block yields `some true`. -/
def checkSyncMarkGo (bs mark : List Nat) (m : Nat) (j : Nat) : Option Bool :=
  if h : j < bs.length then
    if bs.getD j 0 ∈ mark then some false
    else if bs.getD j 0 = m then some true
    else checkSyncMarkGo bs mark m (j + 1)
  else none
termination_by bs.length - j
decreasing_by simp_wf; omega

/-- Model of `check_sync_mark` started at `start + 1` as in the source. -/
def checkSyncMark (bs mark : List Nat) (start m : Nat) : Option Bool :=
  checkSyncMarkGo bs mark m (start + 1)

theorem checkSyncMarkGo_isSome_iff (bs mark : List Nat) (m : Nat) :
    ∀ k j, bs.length - j ≤ k →
      ((checkSyncMarkGo bs mark m j).isSome = true ↔
        ∃ i, j ≤ i ∧ i < bs.length ∧ (bs.getD i 0 ∈ mark ∨ bs.getD i 0 = m)) := by
  intro k
  induction k with
  | zero =>
    intro j hk
    rw [checkSyncMarkGo, dif_neg (by omega)]
    simp only [Option.isSome_none, Bool.false_eq_true, false_iff]
    rintro ⟨i, h1, h2, _⟩
    omega
  | succ k ih =>
    intro j hk
    rw [checkSyncMarkGo]
    by_cases hj : j < bs.length
    · rw [dif_pos hj]
      by_cases hmark : bs.getD j 0 ∈ mark
      · rw [if_pos hmark]
        simp only [Option.isSome_some, true_iff]
        exact ⟨j, le_refl _, hj, Or.inl hmark⟩
      · rw [if_neg hmark]
        by_cases hm : bs.getD j 0 = m
        · rw [if_pos hm]
          simp only [Option.isSome_some, true_iff]
          exact ⟨j, le_refl _, hj, Or.inr hm⟩
        · rw [if_neg hm]
          rw [ih (j + 1) (by omega)]
          constructor
          · rintro ⟨i, h1, h2, h3⟩
            exact ⟨i, by omega, h2, h3⟩
          · rintro ⟨i, h1, h2, h3⟩
            refine ⟨i, ?_, h2, h3⟩
            rcases Nat.eq_or_lt_of_le h1 with he | hl
            · subst he
              rcases h3 with h | h
              · exact absurd h hmark
              · exact absurd h hm
            · omega
    · rw [dif_neg hj]
      simp only [Option.isSome_none, Bool.false_eq_true, false_iff]
      rintro ⟨i, h1, h2, _⟩
      omega

/-- Claim C9: the scan of `check_sync_mark` starting after position `start`
stays in bounds (returns, rather than running past the end of the block
list) precisely when the master's block or an already-marked block occurs at
some later in-bounds position — the loop's continuation condition being the
constant `exprs_inorder.size()`, in-bounds access depends on exactly this
property. -/
theorem checkSyncMark_inBounds_iff (bs mark : List Nat) (start m : Nat) :
    (checkSyncMark bs mark start m).isSome = true ↔
      ∃ i, start < i ∧ i < bs.length ∧ (bs.getD i 0 ∈ mark ∨ bs.getD i 0 = m) := by
  unfold checkSyncMark
  rw [checkSyncMarkGo_isSome_iff bs mark m (bs.length - (start + 1)) (start + 1) (le_refl _)]
  constructor
  · rintro ⟨i, h1, h2, h3⟩
    exact ⟨i, by omega, h2, h3⟩
  · rintro ⟨i, h1, h2, h3⟩
    exact ⟨i, by omega, h2, h3⟩

theorem checkSyncMarkGo_true_not_mem (bs mark : List Nat) (m : Nat) :
    ∀ k j, bs.length - j ≤ k → checkSyncMarkGo bs mark m j = some true → m ∉ mark := by
  intro k
  induction k with
  | zero =>
    intro j hk h
    rw [checkSyncMarkGo, dif_neg (by omega)] at h
    cases h
  | succ k ih =>
    intro j hk h
    rw [checkSyncMarkGo] at h
    by_cases hj : j < bs.length
    · rw [dif_pos hj] at h
      by_cases hmark : bs.getD j 0 ∈ mark
      · rw [if_pos hmark] at h
        cases h
      · rw [if_neg hmark] at h
        by_cases hm : bs.getD j 0 = m
        · rw [if_pos hm] at h
          exact fun hmem => hmark (hm ▸ hmem)
        · rw [if_neg hm] at h
          exact ih (j + 1) (by omega) h
    · rw [dif_neg hj] at h
      cases h

theorem checkSyncMark_true_not_mem (bs mark : List Nat) (start m : Nat)
    (h : checkSyncMark bs mark start m = some true) : m ∉ mark :=
  checkSyncMarkGo_true_not_mem bs mark m (bs.length - (start + 1)) (start + 1) (le_refl _) h

/-- Model of `node_data_set` lookup of `SyncThreadWithShared`: the node of `nodes_set`
whose output data identifier is `d`. -/
def findNodeByData (g : OpGraph) (s : List Nat) (d : Nat) : Option Nat :=
  s.find? (fun n => g.outId n == d)

/-- The per-candidate consumer walk inside `GetMaster`: skip visited
consumers, enqueue and visit inlined ones, and return the first non-inlined
consumer immediately.  Returns the enqueued nodes, the updated visited set
and the found master, if any. -/
def getMasterScan (inline : List Nat) : List Nat → List Nat → List Nat × List Nat × Option Nat
  | [], visited => ([], visited, none)
  | c :: cs, visited =>
    if c ∈ visited then getMasterScan inline cs visited
    else if c ∈ inline then
      let r := getMasterScan inline cs (c :: visited)
      (c :: r.1, r.2.1, r.2.2)
    else ([], visited, some c)

/-- The breadth-first queue loop of `GetMaster` (source lines 1262-1287),
fuel-bounded like the other BFS walks. -/
def getMasterGo (g : OpGraph) (inline s : List Nat) : Nat → List Nat → List Nat → Option Nat
  | 0, _, _ => none
  | _ + 1, [], _ => none
  | fuel + 1, cand :: rest, visited =>
    let r := getMasterScan inline (getConsumersInSet g cand s) visited
    match r.2.2 with
    | some m => some m
    | none => getMasterGo g inline s fuel (rest ++ r.1) r.2.1

/-- Model of `GetMaster(node, nodes_inline, nodes_set)`. -/
def getMaster (g : OpGraph) (inline s : List Nat) (node : Nat) (fuel : Nat) : Option Nat :=
  getMasterGo g inline s fuel [node] []

/-- The main loop of `SyncThreadWithShared` (source lines 1317-1358) reduced
to its barrier bookkeeping: walking the block list in order, a materialized
node whose element count differs from its master's is given a shared buffer,
and a thread barrier is inserted after the master's last loop if
`check_sync_mark` returns true — in which case the master's identifier joins
`sync_mark`.  The returned list collects the masters that received an
inserted barrier, in insertion order. -/
def syncGo (g : OpGraph) (inline s bs : List Nat) (fuel : Nat) :
    Nat → Nat → List Nat → List Nat → List Nat
  | 0, _, _, barriers => barriers
  | k + 1, idx, mark, barriers =>
    match findNodeByData g s (bs.getD idx 0) with
    | none => syncGo g inline s bs fuel k (idx + 1) mark barriers
    | some node =>
      match getMaster g inline s node fuel with
      | none => syncGo g inline s bs fuel k (idx + 1) mark barriers
      | some m =>
        let mShape := if g.pattern m = OpPatternKind.kReduction
          then g.shape (g.firstInId m) else g.shape (g.outId m)
        if (g.shape (bs.getD idx 0)).prod = mShape.prod then
          syncGo g inline s bs fuel k (idx + 1) mark barriers
        else if checkSyncMark bs mark idx (g.outId m) = some true then
          syncGo g inline s bs fuel k (idx + 1) (mark ++ [g.outId m])
            (barriers ++ [g.outId m])
        else syncGo g inline s bs fuel k (idx + 1) mark barriers

/-- Model of `SyncThreadWithShared`: the outer loop runs `exprs_inorder.size() - 1`
iterations from index 0. -/
def syncThreadWithShared (g : OpGraph) (inline s bs : List Nat) (fuel : Nat) : List Nat :=
  syncGo g inline s bs fuel (bs.length - 1) 0 [] []

theorem barrier_insert_aux {mark barriers : List Nat} {mo : Nat}
    (hnd : barriers.Nodup) (hsub : ∀ x, x ∈ barriers → x ∈ mark) (hnm : mo ∉ mark) :
    (barriers ++ [mo]).Nodup ∧ ∀ x, x ∈ barriers ++ [mo] → x ∈ mark ++ [mo] := by
  constructor
  · refine List.Nodup.append hnd (by simp) ?_
    intro a ha hb
    have hab : a = mo := by simpa using hb
    subst hab
    exact hnm (hsub a ha)
  · intro x hx
    rcases List.mem_append.mp hx with h1 | h2
    · exact List.mem_append.mpr (Or.inl (hsub x h1))
    · exact List.mem_append.mpr (Or.inr h2)

theorem syncGo_nodup (g : OpGraph) (inline s bs : List Nat) (fuel : Nat) :
    ∀ k idx mark barriers, barriers.Nodup → (∀ x, x ∈ barriers → x ∈ mark) →
      (syncGo g inline s bs fuel k idx mark barriers).Nodup := by
  intro k
  induction k with
  | zero => intro idx mark barriers hnd _; exact hnd
  | succ k ih =>
    intro idx mark barriers hnd hsub
    rw [syncGo]
    cases hfn : findNodeByData g s (bs.getD idx 0) with
    | none =>
      dsimp only
      exact ih (idx + 1) mark barriers hnd hsub
    | some node =>
      dsimp only
      cases hgm : getMaster g inline s node fuel with
      | none =>
        dsimp only
        exact ih (idx + 1) mark barriers hnd hsub
      | some m =>
        dsimp only
        split
        · split
          · exact ih (idx + 1) mark barriers hnd hsub
          · split
            · rename_i hchk
              have haux := barrier_insert_aux hnd hsub
                (checkSyncMark_true_not_mem bs mark idx _ hchk)
              exact ih (idx + 1) _ _ haux.1 haux.2
            · exact ih (idx + 1) mark barriers hnd hsub
        · split
          · exact ih (idx + 1) mark barriers hnd hsub
          · split
            · rename_i hchk
              have haux := barrier_insert_aux hnd hsub
                (checkSyncMark_true_not_mem bs mark idx _ hchk)
              exact ih (idx + 1) _ _ haux.1 haux.2
            · exact ih (idx + 1) mark barriers hnd hsub

/-- Claim C8: across one run of `SyncThreadWithShared`, every master node
receives at most one inserted synchronization barrier — the list of masters
given a barrier contains no duplicates, because inserting a barrier puts the
master's identifier into `sync_mark` and `check_sync_mark` answers false for
any identifier already in `sync_mark` (the mark test precedes the name
test). -/
theorem syncThreadWithShared_barriers_nodup (g : OpGraph) (inline s bs : List Nat)
    (fuel : Nat) : (syncThreadWithShared g inline s bs fuel).Nodup :=
  syncGo_nodup g inline s bs fuel (bs.length - 1) 0 [] []
    List.nodup_nil (by intro x hx; cases hx)

end CinnSched
